import Mathlib

/-!
# Verification of the ResumeRAG document pipeline

A shallow embedding of the ResumeRAG pipeline: PII redaction, the chunk-level
vector index with semantic search, job/candidate matching with gap analysis,
input validation, content-addressed embedding, deletion, archive extraction,
and the frontend search handler and auth store.  Text is modelled as
`List Char`, similarity scores as integers (only their ordering matters).
-/

namespace ResumeRAG

/-! ## Characters and whitespace -/

/-- A whitespace character (space, tab, newline, carriage return). -/
def isWsChar (c : Char) : Bool :=
  c == ' ' || c == '\t' || c == '\n' || c == '\r'

/-- `x` is in the same whitespace class as `c`. -/
def sameClass (c x : Char) : Bool :=
  isWsChar x == isWsChar c

/-- The whitespace class of a run of characters (class of its head). -/
def runClass (r : List Char) : Bool :=
  match r with
  | [] => false
  | c :: _ => isWsChar c

/-! ## Email pattern

Modelled from the spec: the PII redactor (backend `resume_service.py`) is not
under `src/`; per §4.2 and §8 the detector replaces personal-data spans with
category placeholders.  We model the email detector: a span matches the email
pattern when it is `local@domain` with a non-empty local part of email-local
characters, a non-empty domain of domain characters containing a dot. -/

/-- Characters allowed in the local part of an email address. -/
def isLocalChar (c : Char) : Bool :=
  c.isAlphanum || c == '.' || c == '_' || c == '%' || c == '+' || c == '-'

/-- Characters allowed in the domain part of an email address. -/
def isDomainChar (c : Char) : Bool :=
  c.isAlphanum || c == '.' || c == '-'

/-- `s` matches the email pattern as a whole: a non-empty local part, a
single `@`, then a non-empty domain containing a dot. -/
def emailPattern (s : List Char) : Bool :=
  match s.dropWhile (fun c => !(c == '@')) with
  | [] => false
  | _ :: d =>
      !(s.takeWhile (fun c => !(c == '@'))).isEmpty
        && (s.takeWhile (fun c => !(c == '@'))).all isLocalChar
        && !d.isEmpty && d.all isDomainChar && d.contains '.'

/-- `t` contains a substring matching the email pattern. -/
def containsEmail (t : List Char) : Bool :=
  t.tails.any (fun suf => suf.inits.any emailPattern)

/-- The category placeholder substituted for a detected email span. -/
def placeholder : List Char := "[EMAIL]".data

/-! ## Maximal whitespace/word runs of a text -/

/-- Split a text into maximal runs of characters of the same whitespace
class.  Whitespace runs and word runs alternate. -/
def runs : List Char → List (List Char)
  | [] => []
  | c :: cs =>
      (c :: cs.takeWhile (sameClass c)) :: runs (cs.dropWhile (sameClass c))
termination_by l => l.length
decreasing_by
  simp only [List.length_cons]
  exact Nat.lt_succ_of_le (List.Sublist.length_le (List.dropWhile_sublist _))

theorem runs_nil : runs [] = [] := by
  simp [runs]

theorem runs_cons (c : Char) (cs : List Char) :
    runs (c :: cs) =
      (c :: cs.takeWhile (sameClass c)) :: runs (cs.dropWhile (sameClass c)) := by
  rw [runs]

/-- Redact one run: a word run containing an email is replaced by the
placeholder, all other runs (whitespace runs and clean word runs) are kept. -/
def redactRun (r : List Char) : List Char :=
  if !(runClass r) && containsEmail r then placeholder else r

/-- Modelled from the spec: the PII redactor (backend `resume_service.py`) is
not under `src/`.  Per §4.2, detected personal-data spans are replaced by
category placeholders, non-matched text and whitespace structure are
preserved, and the transformation is deterministic. -/
def redact (t : List Char) : List Char :=
  ((runs t).map redactRun).flatten

/-! ## Basic facts about runs -/

theorem flatten_runs (t : List Char) : (runs t).flatten = t := by
  induction t using runs.induct with
  | case1 => simp [runs_nil]
  | case2 c cs ih =>
      rw [runs_cons, List.flatten_cons, List.cons_append, ih,
        List.takeWhile_append_dropWhile]

theorem mem_takeWhile_sameClass {c : Char} {cs : List Char} {x : Char}
    (hx : x ∈ cs.takeWhile (sameClass c)) : isWsChar x = isWsChar c := by
  have := List.mem_takeWhile_imp hx
  simpa [sameClass] using this

theorem dropWhile_head_not {p : Char → Bool} {l : List Char} {x : Char}
    {xs : List Char} (h : l.dropWhile p = x :: xs) : p x = false := by
  induction l with
  | nil => simp [List.dropWhile] at h
  | cons a as ih =>
      by_cases hpa : p a = true
      · rw [List.dropWhile_cons_of_pos hpa] at h
        exact ih h
      · rw [List.dropWhile_cons_of_neg hpa] at h
        cases h
        simpa using hpa

/-- Every run is non-empty and uniform in whitespace class. -/
theorem runs_uniform (t : List Char) :
    ∀ r ∈ runs t, r ≠ [] ∧ ∀ x ∈ r, isWsChar x = runClass r := by
  induction t using runs.induct with
  | case1 => simp [runs_nil]
  | case2 c cs ih =>
      rw [runs_cons]
      intro r hr
      rcases List.mem_cons.mp hr with h | h
      · subst h
        refine ⟨by simp, ?_⟩
        intro x hx
        rcases List.mem_cons.mp hx with h | h
        · subst h; simp [runClass]
        · simpa [runClass] using mem_takeWhile_sameClass h
      · exact ih r h

/-- Adjacent runs have different whitespace classes. -/
theorem runs_chain (t : List Char) :
    (runs t).Chain' (fun r₁ r₂ => runClass r₁ ≠ runClass r₂) := by
  induction t using runs.induct with
  | case1 => simp [runs_nil]
  | case2 c cs ih =>
      rw [runs_cons]
      refine List.chain'_cons'.mpr ⟨?_, ih⟩
      intro r₂ hr₂
      cases hdrop : cs.dropWhile (sameClass c) with
      | nil => rw [hdrop, runs_nil] at hr₂; simp at hr₂
      | cons d ds =>
          rw [hdrop, runs_cons] at hr₂
          simp only [List.head?_cons, Option.mem_def, Option.some.injEq] at hr₂
          subst hr₂
          have hd : sameClass c d = false := dropWhile_head_not hdrop
          simp only [sameClass] at hd
          simp only [runClass]
          intro hcontra
          rw [hcontra] at hd
          simp at hd

/-- A valid run decomposition: non-empty uniform runs with alternating
whitespace classes. -/
def ValidRuns (rs : List (List Char)) : Prop :=
  (∀ r ∈ rs, r ≠ [] ∧ ∀ x ∈ r, isWsChar x = runClass r) ∧
    rs.Chain' (fun r₁ r₂ => runClass r₁ ≠ runClass r₂)

theorem validRuns_runs (t : List Char) : ValidRuns (runs t) :=
  ⟨runs_uniform t, runs_chain t⟩

theorem takeWhile_append_all {p : Char → Bool} {a b : List Char}
    (h : ∀ x ∈ a, p x = true) :
    (a ++ b).takeWhile p = a ++ b.takeWhile p := by
  induction a with
  | nil => simp
  | cons x xs ih =>
      have hx : p x = true := h x (List.mem_cons_self x xs)
      simp only [List.cons_append, List.takeWhile_cons, hx, if_true]
      rw [ih (fun y hy => h y (List.mem_cons_of_mem x hy))]

theorem dropWhile_append_all {p : Char → Bool} {a b : List Char}
    (h : ∀ x ∈ a, p x = true) :
    (a ++ b).dropWhile p = b.dropWhile p := by
  induction a with
  | nil => simp
  | cons x xs ih =>
      have hx : p x = true := h x (List.mem_cons_self x xs)
      simp only [List.cons_append, List.dropWhile_cons, hx, if_true]
      exact ih (fun y hy => h y (List.mem_cons_of_mem x hy))

theorem takeWhile_all {p : Char → Bool} {a : List Char}
    (h : ∀ x ∈ a, p x = true) : a.takeWhile p = a := by
  induction a with
  | nil => simp
  | cons x xs ih =>
      rw [List.takeWhile_cons_of_pos (h x (List.mem_cons_self x xs)),
        ih (fun y hy => h y (List.mem_cons_of_mem x hy))]

theorem dropWhile_all {p : Char → Bool} {a : List Char}
    (h : ∀ x ∈ a, p x = true) : a.dropWhile p = [] := by
  induction a with
  | nil => simp
  | cons x xs ih =>
      rw [List.dropWhile_cons_of_pos (h x (List.mem_cons_self x xs)),
        ih (fun y hy => h y (List.mem_cons_of_mem x hy))]

/-- `runs` is a left inverse of `flatten` on valid run decompositions. -/
theorem runs_flatten_valid {rs : List (List Char)} (hv : ValidRuns rs) :
    runs rs.flatten = rs := by
  induction rs with
  | nil => simp [runs_nil]
  | cons r rest ih =>
      obtain ⟨huni, hchain⟩ := hv
      obtain ⟨hne, hr⟩ := huni r (List.mem_cons_self r rest)
      have hrest : ValidRuns rest :=
        ⟨fun x hx => huni x (List.mem_cons_of_mem _ hx),
          (List.chain'_cons'.mp hchain).2⟩
      cases r with
      | nil => exact absurd rfl hne
      | cons c r₀ =>
          have hall : ∀ x ∈ r₀, sameClass c x = true := by
            intro x hx
            have hx1 := hr x (List.mem_cons_of_mem c hx)
            have hc1 := hr c (List.mem_cons_self c r₀)
            simp only [sameClass]
            rw [hx1, hc1]
            simp
          cases rest with
          | nil =>
              simp only [List.flatten_cons, List.flatten_nil, List.append_nil]
              rw [runs_cons, takeWhile_all hall, dropWhile_all hall, runs_nil]
          | cons r₂ rest₂ =>
              obtain ⟨hne₂, -⟩ := huni r₂
                (List.mem_cons_of_mem _ (List.mem_cons_self _ _))
              cases r₂ with
              | nil => exact absurd rfl hne₂
              | cons d r₂₀ =>
                  have hdc : sameClass c d = false := by
                    have hadj := (List.chain'_cons'.mp hchain).1 (d :: r₂₀) rfl
                    simp only [runClass] at hadj
                    simp only [sameClass]
                    cases h1 : isWsChar d <;> cases h2 : isWsChar c <;> simp_all
                  have key : ((c :: r₀) :: (d :: r₂₀) :: rest₂).flatten
                      = c :: (r₀ ++ ((d :: r₂₀) :: rest₂).flatten) := by simp
                  have hhead : ((d :: r₂₀) :: rest₂).flatten
                      = d :: (r₂₀ ++ rest₂.flatten) := by simp
                  rw [key, runs_cons, takeWhile_append_all hall,
                    dropWhile_append_all hall, hhead,
                    List.takeWhile_cons_of_neg (by rw [hdc]; simp),
                    List.dropWhile_cons_of_neg (by rw [hdc]; simp),
                    List.append_nil, ← hhead, ih hrest]

/-! ## Email characterization lemmas -/

theorem containsEmail_iff {t : List Char} :
    containsEmail t = true ↔ ∃ s, emailPattern s = true ∧ s <:+: t := by
  unfold containsEmail
  rw [List.any_eq_true]
  constructor
  · rintro ⟨suf, hsuf, hany⟩
    rw [List.any_eq_true] at hany
    obtain ⟨s, hs, hp⟩ := hany
    exact ⟨s, hp, List.infix_iff_prefix_suffix.mpr
      ⟨suf, (List.mem_inits _ _).mp hs, (List.mem_tails _ _).mp hsuf⟩⟩
  · rintro ⟨s, hp, hinf⟩
    obtain ⟨suf, hpre, hsuf⟩ := List.infix_iff_prefix_suffix.mp hinf
    exact ⟨suf, (List.mem_tails _ _).mpr hsuf,
      List.any_eq_true.mpr ⟨s, (List.mem_inits _ _).mpr hpre, hp⟩⟩

theorem isLocalChar_not_ws {c : Char} (h : isLocalChar c = true) :
    isWsChar c = false := by
  cases hw : isWsChar c
  · rfl
  · exfalso
    simp only [isWsChar, Bool.or_eq_true, beq_iff_eq] at hw
    rcases hw with ((h1 | h1) | h1) | h1 <;> subst h1 <;>
      exact absurd h (by decide)

theorem isDomainChar_not_ws {c : Char} (h : isDomainChar c = true) :
    isWsChar c = false := by
  cases hw : isWsChar c
  · rfl
  · exfalso
    simp only [isWsChar, Bool.or_eq_true, beq_iff_eq] at hw
    rcases hw with ((h1 | h1) | h1) | h1 <;> subst h1 <;>
      exact absurd h (by decide)

theorem emailPattern_nonempty {s : List Char} (h : emailPattern s = true) :
    s ≠ [] := by
  intro hnil
  subst hnil
  exact absurd h (by decide)

theorem emailPattern_no_ws {s : List Char} (h : emailPattern s = true) :
    ∀ c ∈ s, isWsChar c = false := by
  intro c hc
  unfold emailPattern at h
  cases hrest : s.dropWhile (fun c => !(c == '@')) with
  | nil => rw [hrest] at h; simp at h
  | cons a d =>
      rw [hrest] at h
      simp only [Bool.and_eq_true] at h
      obtain ⟨⟨⟨⟨-, hl2⟩, -⟩, hd2⟩, -⟩ := h
      have hs : s = s.takeWhile (fun c => !(c == '@')) ++ (a :: d) := by
        rw [← hrest, List.takeWhile_append_dropWhile]
      have ha : a = '@' := by
        have := dropWhile_head_not hrest
        simpa using this
      rw [hs] at hc
      rcases List.mem_append.mp hc with hcl | hcr
      · exact isLocalChar_not_ws (List.all_eq_true.mp hl2 c hcl)
      · rcases List.mem_cons.mp hcr with hca | hcd
        · subst hca; rw [ha]; rfl
        · exact isDomainChar_not_ws (List.all_eq_true.mp hd2 c hcd)

/-- Splitting an infix of an append across the two sides. -/
theorem infix_append_split {α : Type} {s a b : List α} (h : s <:+: a ++ b) :
    s <:+: a ∨ s <:+: b ∨
      ∃ s₁ s₂, s = s₁ ++ s₂ ∧ s₁ ≠ [] ∧ s₂ ≠ [] ∧ s₁ <:+ a ∧ s₂ <+: b := by
  obtain ⟨u, v, huv⟩ := h
  rw [List.append_assoc] at huv
  rcases List.append_eq_append_iff.mp huv with ⟨w, hw1, hw2⟩ | ⟨w, hw1, hw2⟩
  · rcases List.append_eq_append_iff.mp hw2 with ⟨y, hy1, hy2⟩ | ⟨y, hy1, hy2⟩
    · left
      subst hy1
      subst hw1
      exact ⟨u, y, by rw [List.append_assoc]⟩
    · by_cases hynil : y = []
      · subst hynil
        left
        subst hw1
        rw [List.append_nil] at hy1
        subst hy1
        exact ⟨u, [], by rw [List.append_nil]⟩
      · by_cases hwnil : w = []
        · subst hwnil
          right; left
          simp only [List.nil_append] at hy1
          subst hy1
          exact ⟨[], v, by rw [List.nil_append, hy2]⟩
        · right; right
          exact ⟨w, y, hy1, hwnil, hynil, ⟨u, hw1.symm⟩, ⟨v, hy2.symm⟩⟩
  · right; left
    exact ⟨w, v, by rw [List.append_assoc, hw2]⟩

/-- A non-empty all-non-whitespace infix of the flattening of a valid run
decomposition lies inside a single run. -/
theorem infix_flatten_valid {s : List Char} {rs : List (List Char)}
    (hv : ValidRuns rs) (hs : s ≠ []) (hns : ∀ c ∈ s, isWsChar c = false)
    (h : s <:+: rs.flatten) : ∃ r ∈ rs, s <:+: r := by
  induction rs with
  | nil =>
      exfalso
      simp only [List.flatten_nil] at h
      exact hs (List.eq_nil_of_sublist_nil h.sublist)
  | cons r rest ih =>
      obtain ⟨huni, hchain⟩ := hv
      rw [List.flatten_cons] at h
      rcases infix_append_split h with h1 | h1 | h1
      · exact ⟨r, List.mem_cons_self _ _, h1⟩
      · obtain ⟨r₂, hr₂, hinf⟩ := ih
          ⟨fun x hx => huni x (List.mem_cons_of_mem _ hx),
            (List.chain'_cons'.mp hchain).2⟩ h1
        exact ⟨r₂, List.mem_cons_of_mem _ hr₂, hinf⟩
      · exfalso
        obtain ⟨s₁, s₂, hsplit, hs₁, hs₂, hsuf, hpre⟩ := h1
        obtain ⟨c₁, hc₁⟩ := List.exists_mem_of_ne_nil s₁ hs₁
        have hc₁r : c₁ ∈ r := hsuf.sublist.subset hc₁
        have hc₁s : c₁ ∈ s := by rw [hsplit]; exact List.mem_append_left _ hc₁
        have hclr : runClass r = false := by
          rw [← (huni r (List.mem_cons_self _ _)).2 c₁ hc₁r]
          exact hns c₁ hc₁s
        cases hre : rest with
        | nil =>
            rw [hre, List.flatten_nil, List.prefix_nil] at hpre
            exact hs₂ hpre
        | cons r₂ rest₂ =>
            obtain ⟨hne₂, huni₂⟩ := huni r₂
              (by rw [hre]; exact List.mem_cons_of_mem _ (List.mem_cons_self _ _))
            cases r₂ with
            | nil => exact absurd rfl hne₂
            | cons d r₂₀ =>
                cases s₂ with
                | nil => exact hs₂ rfl
                | cons c₂ s₂₀ =>
                    rw [hre] at hpre
                    simp only [List.flatten_cons, List.cons_append] at hpre
                    obtain ⟨hcd, -⟩ := List.cons_prefix_cons.mp hpre
                    have hc₂s : c₂ ∈ s := by
                      rw [hsplit]
                      exact List.mem_append_right _ (List.mem_cons_self _ _)
                    have hcld : runClass (d :: r₂₀) = false := by
                      simp only [runClass]
                      rw [← hcd]
                      exact hns c₂ hc₂s
                    have hadj := (List.chain'_cons'.mp hchain).1 (d :: r₂₀)
                      (by rw [hre]; rfl)
                    rw [hclr, hcld] at hadj
                    exact hadj rfl

/-- Inside the flattening of a valid decomposition, an email-pattern match
lies in a single word run, which therefore contains an email. -/
theorem email_infix_run {s : List Char} {rs : List (List Char)}
    (hv : ValidRuns rs) (hp : emailPattern s = true) (h : s <:+: rs.flatten) :
    ∃ r ∈ rs, runClass r = false ∧ containsEmail r = true := by
  obtain ⟨r, hr, hinf⟩ :=
    infix_flatten_valid hv (emailPattern_nonempty hp) (emailPattern_no_ws hp) h
  refine ⟨r, hr, ?_, containsEmail_iff.mpr ⟨s, hp, hinf⟩⟩
  obtain ⟨c, hc⟩ := List.exists_mem_of_ne_nil s (emailPattern_nonempty hp)
  rw [← (hv.1 r hr).2 c (hinf.sublist.subset hc)]
  exact emailPattern_no_ws hp c hc

theorem placeholder_no_email : containsEmail placeholder = false := by decide

theorem redactRun_class (r : List Char) :
    runClass (redactRun r) = runClass r := by
  unfold redactRun
  by_cases h : (!(runClass r) && containsEmail r) = true
  · rw [if_pos h]
    simp only [Bool.and_eq_true, Bool.not_eq_true'] at h
    rw [h.1]
    decide
  · rw [if_neg h]

theorem redactRun_uniform {r : List Char}
    (hu : r ≠ [] ∧ ∀ x ∈ r, isWsChar x = runClass r) :
    redactRun r ≠ [] ∧ ∀ x ∈ redactRun r, isWsChar x = runClass (redactRun r) := by
  unfold redactRun
  by_cases h : (!(runClass r) && containsEmail r) = true
  · rw [if_pos h]
    exact ⟨by decide, by decide⟩
  · rw [if_neg h]
    exact hu

theorem validRuns_map_redactRun {rs : List (List Char)} (hv : ValidRuns rs) :
    ValidRuns (rs.map redactRun) := by
  obtain ⟨huni, hchain⟩ := hv
  constructor
  · intro r hr
    obtain ⟨r₀, hr₀, rfl⟩ := List.mem_map.mp hr
    exact redactRun_uniform (huni r₀ hr₀)
  · rw [List.chain'_map]
    exact hchain.imp (fun a b hab => by
      rw [redactRun_class, redactRun_class]; exact hab)

/-- The run decomposition of the redacted text is the pointwise redaction of
the run decomposition of the input: whitespace structure is preserved. -/
theorem runs_redact (t : List Char) :
    runs (redact t) = (runs t).map redactRun := by
  have := runs_flatten_valid (validRuns_map_redactRun (validRuns_runs t))
  simpa [redact] using this

theorem redactRun_idem (r : List Char) :
    redactRun (redactRun r) = redactRun r := by
  unfold redactRun
  by_cases h : (!(runClass r) && containsEmail r) = true
  · rw [if_pos h, if_neg (by decide)]
  · rw [if_neg h, if_neg h]

/-- C2: redaction is idempotent — `redact (redact t) = redact t` for every
text `t`, byte for byte; in particular redacting already-redacted text (all
remaining runs placeholder or clean) changes nothing. -/
theorem redact_idempotent (t : List Char) : redact (redact t) = redact t := by
  show ((runs (redact t)).map redactRun).flatten = redact t
  rw [runs_redact, List.map_map]
  have hmap : (runs t).map (redactRun ∘ redactRun) = (runs t).map redactRun :=
    List.map_congr_left (fun r _ => redactRun_idem r)
  rw [hmap]
  rfl

/-- C3: for every text containing a recognizable email address, the redacted
output contains no substring matching the email pattern and contains the
category placeholder in its place; the run structure (whitespace runs and all
word runs without a detected email) is preserved pointwise. -/
theorem redact_email_spec (t : List Char) :
    (∀ s, s <:+: redact t → emailPattern s = false) ∧
    (containsEmail t = true → placeholder <:+: redact t) ∧
    runs (redact t) = (runs t).map redactRun ∧
    (∀ r ∈ runs t, containsEmail r = false → redactRun r = r) := by
  refine ⟨?_, ?_, runs_redact t, ?_⟩
  · intro s hinf
    cases hp : emailPattern s with
    | false => rfl
    | true =>
        exfalso
        have hv := validRuns_map_redactRun (validRuns_runs t)
        have hflat : s <:+: ((runs t).map redactRun).flatten := hinf
        obtain ⟨r, hr, hcl, hce⟩ := email_infix_run hv hp hflat
        obtain ⟨r₀, hr₀, rfl⟩ := List.mem_map.mp hr
        by_cases hcond : (!(runClass r₀) && containsEmail r₀) = true
        · unfold redactRun at hce
          rw [if_pos hcond] at hce
          exact absurd hce (by decide)
        · unfold redactRun at hce hcl
          rw [if_neg hcond] at hce hcl
          simp only [Bool.and_eq_true, Bool.not_eq_true'] at hcond
          rw [hcl, hce] at hcond
          simp at hcond
  · intro hce
    obtain ⟨s, hp, hinf⟩ := containsEmail_iff.mp hce
    obtain ⟨r, hr, hcl, hcre⟩ := email_infix_run (validRuns_runs t) hp
      (by rw [flatten_runs]; exact hinf)
    have hred : redactRun r = placeholder := by
      unfold redactRun
      rw [if_pos (by rw [hcl, hcre]; rfl)]
    have hmem : placeholder ∈ (runs t).map redactRun := by
      rw [← hred]
      exact List.mem_map_of_mem redactRun hr
    exact List.infix_of_mem_flatten hmem
  · intro r _ hnone
    unfold redactRun
    rw [if_neg (by rw [hnone]; simp)]

/-- Witness for C3 at a concrete text containing an email address. -/
theorem redact_email_spec_witness :
    containsEmail "hi a@b.cc".data = true ∧
      placeholder <:+: redact "hi a@b.cc".data :=
  ⟨by decide, (redact_email_spec "hi a@b.cc".data).2.1 (by decide)⟩

/-! ## Documents, chunks and the vector index

Modelled from the spec: the backend pipeline (`resume_service.py`) is not
under `src/`.  §3 and §4.4-§4.6 describe documents with a lifecycle stage,
chunk-level vectors, a document-level vector, and cosine similarity as the
dot product of stored (already normalized) vectors; we model similarity
scores as integers since only their ordering matters. -/

/-- Lifecycle phases of a document (§4.6). -/
inductive Phase where
  | uploaded
  | extracted
  | redacted
  | embedded
  | indexed
deriving DecidableEq

/-- A lifecycle stage: a phase reached normally, or failed at a phase. -/
inductive Stage where
  | ok (p : Phase)
  | failed (p : Phase)
deriving DecidableEq

/-- A chunk: a span of document text with its embedding vector. -/
structure Chunk where
  text : List Char
  vec : List Int
deriving DecidableEq

/-- A document record: identity, lifecycle stage, chunks, document-level
vector, redacted text. -/
structure Doc where
  id : Nat
  stage : Stage
  chunks : List Chunk
  docVec : List Int
  redactedText : List Char
deriving DecidableEq

/-- Cosine similarity of stored normalized vectors: the dot product (§4.4). -/
def sim (a b : List Int) : Int :=
  (List.zipWith (fun x y => x * y) a b).sum

/-- Combine a candidate chunk with the best chunk of the remaining list
(the earlier chunk wins ties). -/
def betterChunk (qv : List Int) (c : Chunk) : Option Chunk → Option Chunk
  | none => some c
  | some b => if sim qv c.vec < sim qv b.vec then some b else some c

/-- The highest-scoring chunk against a query vector (earliest chunk wins
ties). -/
def bestChunk (qv : List Int) : List Chunk → Option Chunk
  | [] => none
  | c :: cs => betterChunk qv c (bestChunk qv cs)

theorem bestChunk_cons (qv : List Int) (c : Chunk) (cs : List Chunk) :
    bestChunk qv (c :: cs) = betterChunk qv c (bestChunk qv cs) := rfl

theorem bestChunk_cons_ne_none (qv : List Int) (c : Chunk) (cs : List Chunk) :
    bestChunk qv (c :: cs) ≠ none := by
  rw [bestChunk_cons]
  cases bestChunk qv cs with
  | none => simp [betterChunk]
  | some b =>
      simp only [betterChunk]
      split <;> simp

theorem bestChunk_mem {qv : List Int} {cs : List Chunk} {c : Chunk}
    (h : bestChunk qv cs = some c) : c ∈ cs := by
  induction cs with
  | nil => simp [bestChunk] at h
  | cons a as ih =>
      rw [bestChunk_cons] at h
      cases hb : bestChunk qv as with
      | none =>
          rw [hb] at h
          simp only [betterChunk, Option.some.injEq] at h
          subst h
          exact List.mem_cons_self _ _
      | some b =>
          rw [hb] at h
          simp only [betterChunk] at h
          by_cases hlt : sim qv a.vec < sim qv b.vec
          · rw [if_pos hlt] at h
            cases h
            exact List.mem_cons_of_mem _ (ih hb)
          · rw [if_neg hlt] at h
            cases h
            exact List.mem_cons_self _ _

theorem bestChunk_max {qv : List Int} {cs : List Chunk} {c : Chunk}
    (h : bestChunk qv cs = some c) :
    ∀ x ∈ cs, sim qv x.vec ≤ sim qv c.vec := by
  induction cs generalizing c with
  | nil => simp [bestChunk] at h
  | cons a as ih =>
      intro x hx
      rw [bestChunk_cons] at h
      cases hb : bestChunk qv as with
      | none =>
          rw [hb] at h
          simp only [betterChunk, Option.some.injEq] at h
          subst h
          cases as with
          | nil =>
              rcases List.mem_cons.mp hx with h2 | h2
              · subst h2; exact le_refl _
              · simp at h2
          | cons y ys => exact absurd hb (bestChunk_cons_ne_none qv y ys)
      | some b =>
          rw [hb] at h
          simp only [betterChunk] at h
          by_cases hlt : sim qv a.vec < sim qv b.vec
          · rw [if_pos hlt] at h
            cases h
            rcases List.mem_cons.mp hx with h2 | h2
            · subst h2; exact le_of_lt hlt
            · exact ih hb x h2
          · rw [if_neg hlt] at h
            cases h
            rcases List.mem_cons.mp hx with h2 | h2
            · subst h2; exact le_refl _
            · exact le_trans (ih hb x h2) (not_lt.mp hlt)


/-! ## Insertion sort by a boolean total preorder -/

def insertBy {α : Type} (le : α → α → Bool) (x : α) : List α → List α
  | [] => [x]
  | y :: ys => if le x y then x :: y :: ys else y :: insertBy le x ys

def sortBy {α : Type} (le : α → α → Bool) : List α → List α
  | [] => []
  | x :: xs => insertBy le x (sortBy le xs)

theorem mem_insertBy {α : Type} (le : α → α → Bool) (x y : α) (l : List α) :
    y ∈ insertBy le x l ↔ y = x ∨ y ∈ l := by
  induction l with
  | nil => simp [insertBy]
  | cons a as ih =>
      simp only [insertBy]
      by_cases h : le x a = true
      · rw [if_pos h]
        simp [List.mem_cons]
      · rw [if_neg h]
        simp only [List.mem_cons, ih]
        tauto

theorem mem_sortBy {α : Type} (le : α → α → Bool) (x : α) (l : List α) :
    x ∈ sortBy le l ↔ x ∈ l := by
  induction l with
  | nil => simp [sortBy]
  | cons a as ih =>
      simp only [sortBy, mem_insertBy, List.mem_cons, ih]

theorem pairwise_insertBy {α : Type} {le : α → α → Bool}
    (htot : ∀ a b, le a b = false → le b a = true)
    (htrans : ∀ a b c, le a b = true → le b c = true → le a c = true)
    {x : α} {l : List α} (h : l.Pairwise (fun a b => le a b = true)) :
    (insertBy le x l).Pairwise (fun a b => le a b = true) := by
  induction l with
  | nil => simp [insertBy]
  | cons y ys ih =>
      obtain ⟨hy, hys⟩ := List.pairwise_cons.mp h
      simp only [insertBy]
      by_cases hxy : le x y = true
      · rw [if_pos hxy]
        refine List.pairwise_cons.mpr ⟨?_, h⟩
        intro z hz
        rcases List.mem_cons.mp hz with h2 | h2
        · subst h2; exact hxy
        · exact htrans x y z hxy (hy z h2)
      · rw [if_neg hxy]
        refine List.pairwise_cons.mpr ⟨?_, ih hys⟩
        intro z hz
        rcases (mem_insertBy le x z ys).mp hz with h2 | h2
        · rw [h2]
          exact htot x y (by revert hxy; cases le x y <;> simp)
        · exact hy z h2

theorem pairwise_sortBy {α : Type} {le : α → α → Bool}
    (htot : ∀ a b, le a b = false → le b a = true)
    (htrans : ∀ a b c, le a b = true → le b c = true → le a c = true)
    (l : List α) :
    (sortBy le l).Pairwise (fun a b => le a b = true) := by
  induction l with
  | nil => simp [sortBy]
  | cons x xs ih => exact pairwise_insertBy htot htrans ih

/-! ## Semantic search (§4.5) -/

/-- A search result entry: owning document, snippet, best chunk score. -/
structure SearchHit where
  docId : Nat
  snippet : List Char
  score : Int
deriving DecidableEq

/-- Result ordering: score descending, ties by ascending document id. -/
def hitLE (a b : SearchHit) : Bool :=
  decide (b.score < a.score)
    || (decide (a.score = b.score) && decide (a.docId ≤ b.docId))

theorem hitLE_total (a b : SearchHit) (h : hitLE a b = false) :
    hitLE b a = true := by
  simp only [hitLE, Bool.or_eq_true, Bool.and_eq_true, decide_eq_true_eq,
    Bool.or_eq_false_iff, Bool.and_eq_false_iff, decide_eq_false_iff_not] at h ⊢
  omega

theorem hitLE_trans (a b c : SearchHit) (h1 : hitLE a b = true)
    (h2 : hitLE b c = true) : hitLE a c = true := by
  simp only [hitLE, Bool.or_eq_true, Bool.and_eq_true, decide_eq_true_eq]
    at h1 h2 ⊢
  omega

/-- A document is visible to search and match only in the Indexed stage. -/
def isIndexed (d : Doc) : Bool :=
  decide (d.stage = Stage.ok Phase.indexed)

/-- Collapse a document to its single best-chunk search entry. -/
def docHit (qv : List Int) (d : Doc) : Option SearchHit :=
  (bestChunk qv d.chunks).map (fun c => ⟨d.id, c.text, sim qv c.vec⟩)

/-- Modelled from the spec: the Query Engine (§4.5, backend not under
`src/`): query the index at chunk granularity over Indexed documents,
collapse to one entry per document by its highest-scoring chunk, order by
that score descending (ties by ascending id, §4.4) and return at most `k`. -/
def search (corpus : List Doc) (qv : List Int) (k : Nat) : List SearchHit :=
  (sortBy hitLE ((corpus.filter isIndexed).filterMap (docHit qv))).take k

/-- C1: `search` returns at most `k` results, ordered non-increasing by
score; every returned entry is a document of the corpus in the Indexed stage,
its score is that of the document's highest-scoring chunk, and its snippet is
the text of a chunk attaining that score. -/
theorem search_spec (corpus : List Doc) (qv : List Int) (k : Nat) :
    (search corpus qv k).length ≤ k ∧
    (search corpus qv k).Pairwise (fun a b => b.score ≤ a.score) ∧
    (∀ h ∈ search corpus qv k, ∃ d ∈ corpus,
      d.stage = Stage.ok Phase.indexed ∧ d.id = h.docId ∧
      ∃ c ∈ d.chunks, h.snippet = c.text ∧ h.score = sim qv c.vec ∧
        ∀ c₂ ∈ d.chunks, sim qv c₂.vec ≤ sim qv c.vec) := by
  refine ⟨List.length_take_le _ _, ?_, ?_⟩
  · refine List.Pairwise.sublist (List.take_sublist _ _) ?_
    refine List.Pairwise.imp ?_ (pairwise_sortBy hitLE_total hitLE_trans _)
    intro a b hab
    simp only [hitLE, Bool.or_eq_true, Bool.and_eq_true, decide_eq_true_eq]
      at hab
    omega
  · intro h hmem
    have hsorted : h ∈ sortBy hitLE
        ((corpus.filter isIndexed).filterMap (docHit qv)) :=
      (List.take_sublist _ _).subset hmem
    have hfm : h ∈ (corpus.filter isIndexed).filterMap (docHit qv) :=
      (mem_sortBy _ _ _).mp hsorted
    obtain ⟨d, hd, hdh⟩ := List.mem_filterMap.mp hfm
    obtain ⟨hdc, hidx⟩ := List.mem_filter.mp hd
    simp only [docHit, Option.map_eq_some'] at hdh
    obtain ⟨c, hbc, hch⟩ := hdh
    refine ⟨d, hdc, of_decide_eq_true hidx, ?_, c, bestChunk_mem hbc, ?_, ?_,
      bestChunk_max hbc⟩
    · rw [← hch]
    · rw [← hch]
    · rw [← hch]

/-- Witness corpus for the search and deletion theorems. -/
def demoCorpus : List Doc :=
  [⟨1, Stage.ok Phase.indexed, [⟨"python docker".data, [1, 0]⟩],
      [1, 0], "5 years python docker aws".data⟩,
    ⟨2, Stage.ok Phase.indexed, [⟨"java spring".data, [0, 1]⟩],
      [0, 1], "java spring".data⟩,
    ⟨3, Stage.ok Phase.uploaded, [⟨"draft".data, [1, 1]⟩],
      [1, 1], "draft".data⟩]

/-- Witness for C1: at a concrete corpus the returned entry is an Indexed
document with its best chunk. -/
theorem search_spec_witness :
    ∃ d ∈ demoCorpus, d.stage = Stage.ok Phase.indexed ∧
      d.id = (SearchHit.mk 1 "python docker".data 1).docId ∧
      ∃ c ∈ d.chunks,
        (SearchHit.mk 1 "python docker".data 1).snippet = c.text ∧
        (SearchHit.mk 1 "python docker".data 1).score = sim [1, 0] c.vec ∧
        ∀ c₂ ∈ d.chunks, sim [1, 0] c₂.vec ≤ sim [1, 0] c.vec :=
  (search_spec demoCorpus [1, 0] 2).2.2 ⟨1, "python docker".data, 1⟩
    (by decide)

/-! ## Requirement gap analysis (§4.6) -/

/-- Collapse whitespace runs, tracking whether the previous character was
whitespace. -/
def collapseWsAux : Bool → List Char → List Char
  | _, [] => []
  | prevWs, c :: cs =>
      if isWsChar c then
        if prevWs then collapseWsAux true cs
        else ' ' :: collapseWsAux true cs
      else c :: collapseWsAux false cs

/-- Collapse each whitespace run to a single space. -/
def collapseWs (t : List Char) : List Char :=
  collapseWsAux false t

/-- Case-insensitive, whitespace-normalized form of a text. -/
def normalize (t : List Char) : List Char :=
  collapseWs (t.map Char.toLower)

/-- A requirement term matches somewhere in a text, case-insensitively and
whitespace-normalized. -/
def containsTerm (text req : List Char) : Bool :=
  decide (normalize req <:+: normalize text)

/-- A job description: identity, title, free text, ordered requirement
terms (first-appearance order). -/
structure Job where
  id : Nat
  title : List Char
  descr : List Char
  requirements : List (List Char)
deriving DecidableEq

/-- Modelled from the spec: §4.6 step 6 (backend `jobs.py` not under
`src/`): the missing requirements of a matched document are the ordered
subset of the job's requirement terms with no case-insensitive,
whitespace-normalized match anywhere in the document's redacted text. -/
def missingRequirements (job : Job) (docText : List Char) : List (List Char) :=
  job.requirements.filter (fun r => !(containsTerm docText r))

/-- C4: `missingRequirements` is the ordered subset (a sublist, preserving
first-appearance order) of the job's requirement terms containing exactly
the terms with no case-insensitive whitespace-normalized match in the
document text; if every term matches, the list is empty. -/
theorem missingRequirements_spec (job : Job) (docText : List Char) :
    (missingRequirements job docText).Sublist job.requirements ∧
    (∀ r, r ∈ missingRequirements job docText ↔
      r ∈ job.requirements ∧ containsTerm docText r = false) ∧
    ((∀ r ∈ job.requirements, containsTerm docText r = true) →
      missingRequirements job docText = []) := by
  refine ⟨List.filter_sublist _, ?_, ?_⟩
  · intro r
    simp [missingRequirements, List.mem_filter]
  · intro hall
    rw [missingRequirements, List.filter_eq_nil_iff]
    intro r hr
    simp [hall r hr]

/-- Witness job for the gap-analysis theorems (spec §8 scenario). -/
def demoJob : Job :=
  ⟨1, "Python Developer".data, "Python Docker React".data,
    ["Python".data, "Docker".data, "React".data]⟩

/-- Witness for C4: a document text containing every requirement term of
the job has an empty missing-requirements list. -/
theorem missingRequirements_spec_witness :
    (∀ r ∈ demoJob.requirements,
      containsTerm "uses python docker react daily".data r = true) ∧
    missingRequirements demoJob "uses python docker react daily".data = [] :=
  ⟨by decide,
    (missingRequirements_spec demoJob "uses python docker react daily".data).2.2
      (by decide)⟩

/-! ## Job-candidate matching (§4.6) -/

/-- A match result entry (§3 MatchResult). -/
structure MatchHit where
  docId : Nat
  score : Int
  evidence : List Char
  missing : List (List Char)
deriving DecidableEq

/-- Match ordering: score descending, ties by ascending document id. -/
def matchHitLE (a b : MatchHit) : Bool :=
  decide (b.score < a.score)
    || (decide (a.score = b.score) && decide (a.docId ≤ b.docId))

theorem matchHitLE_total (a b : MatchHit) (h : matchHitLE a b = false) :
    matchHitLE b a = true := by
  simp only [matchHitLE, Bool.or_eq_true, Bool.and_eq_true, decide_eq_true_eq,
    Bool.or_eq_false_iff, Bool.and_eq_false_iff, decide_eq_false_iff_not] at h ⊢
  omega

theorem matchHitLE_trans (a b c : MatchHit) (h1 : matchHitLE a b = true)
    (h2 : matchHitLE b c = true) : matchHitLE a c = true := by
  simp only [matchHitLE, Bool.or_eq_true, Bool.and_eq_true, decide_eq_true_eq]
    at h1 h2 ⊢
  omega

/-- One document's match entry: document-level similarity, best-chunk
evidence, and the missing-requirements gap analysis. -/
def docMatch (jv : List Int) (job : Job) (d : Doc) : MatchHit :=
  ⟨d.id, sim jv d.docVec,
    ((bestChunk jv d.chunks).map Chunk.text).getD [],
    missingRequirements job d.redactedText⟩

/-- Modelled from the spec: the Match Engine (§4.6, backend not under
`src/`): score every Indexed document against the job vector, sort
descending (ties ascending id), take `topN`. -/
def matchCandidates (corpus : List Doc) (job : Job) (jv : List Int)
    (topN : Nat) : List MatchHit :=
  (sortBy matchHitLE ((corpus.filter isIndexed).map (docMatch jv job))).take
    topN

/-- Deleting an id from the corpus/index (§4.4 `delete`). -/
def indexDelete (corpus : List Doc) (i : Nat) : List Doc :=
  corpus.filter (fun d => !(decide (d.id = i)))

/-- C7: after deleting an id, no subsequent `search` or `matchCandidates`
output mentions that id — deletion is immediately effective with no stale
reads until the id is re-inserted. -/
theorem indexDelete_spec (corpus : List Doc) (i : Nat) (qv jv : List Int)
    (job : Job) (k topN : Nat) :
    (∀ h ∈ search (indexDelete corpus i) qv k, h.docId ≠ i) ∧
    (∀ h ∈ matchCandidates (indexDelete corpus i) job jv topN,
      h.docId ≠ i) := by
  constructor
  · intro h hmem
    obtain ⟨d, hd, -, hid, -⟩ :=
      (search_spec (indexDelete corpus i) qv k).2.2 h hmem
    obtain ⟨-, hdel⟩ := List.mem_filter.mp hd
    intro hcontra
    rw [hid, hcontra] at hdel
    simp at hdel
  · intro h hmem
    have hsorted : h ∈ sortBy matchHitLE
        (((indexDelete corpus i).filter isIndexed).map (docMatch jv job)) :=
      (List.take_sublist _ _).subset hmem
    obtain ⟨d, hd, hdh⟩ := List.mem_map.mp ((mem_sortBy _ _ _).mp hsorted)
    obtain ⟨hdc, -⟩ := List.mem_filter.mp hd
    obtain ⟨-, hdel⟩ := List.mem_filter.mp hdc
    intro hcontra
    have hid : h.docId = d.id := by rw [← hdh]; rfl
    rw [hid] at hcontra
    rw [hcontra] at hdel
    simp at hdel

/-- Witness for C7: in the demo corpus, after deleting document 1 the
returned search hit is not document 1. -/
theorem indexDelete_spec_witness :
    (SearchHit.mk 2 "java spring".data 0).docId ≠ 1 :=
  (indexDelete_spec demoCorpus 1 [1, 0] [1, 0] demoJob 2 2).1
    ⟨2, "java spring".data, 0⟩ (by decide)

/-! ## Input validation (§7)

Modelled from the spec: the backend request validation (`schemas.py` and the
routers) is not under `src/`.  Per §4.5 and §7, `k` / `top_n` are bounded to
1-10 and invalid values are rejected with a validation error before any
model work (embedding or inference) is performed. -/

/-- Lower bound of the accepted result-count range. -/
def kMin : Int := 1

/-- Upper bound of the accepted result-count range. -/
def kMax : Int := 10

/-- Outcome of a validated operation together with the number of model
invocations it performed. -/
structure OpResult (β : Type) where
  outcome : Except (List Char) β
  modelCalls : Nat

/-- The `/ask` operation: validate `k` first, embed and search only when it
is in range. -/
def searchOp (corpus : List Doc) (embedFn : List Char → List Int)
    (q : List Char) (k : Int) : OpResult (List SearchHit) :=
  if decide (k < kMin) || decide (kMax < k) then
    ⟨Except.error "invalid k".data, 0⟩
  else
    ⟨Except.ok (search corpus (embedFn q) k.toNat), 1⟩

/-- The `/jobs/:id/match` operation: validate `top_n` first, embed and match
only when it is in range. -/
def matchOp (corpus : List Doc) (embedFn : List Char → List Int)
    (job : Job) (topN : Int) : OpResult (List MatchHit) :=
  if decide (topN < kMin) || decide (kMax < topN) then
    ⟨Except.error "invalid top_n".data, 0⟩
  else
    ⟨Except.ok (matchCandidates corpus job (embedFn job.descr) topN.toNat), 1⟩

/-- C5: non-positive or out-of-range `k` (resp. `top_n`) is rejected with a
validation error and zero model calls; an in-range `k` proceeds with exactly
one embedding call — out-of-range values are never silently used. -/
theorem validateK_spec (corpus : List Doc) (embedFn : List Char → List Int)
    (q : List Char) (job : Job) (k topN : Int) :
    ((k ≤ 0 ∨ 10 < k) →
      (searchOp corpus embedFn q k).outcome = Except.error "invalid k".data ∧
      (searchOp corpus embedFn q k).modelCalls = 0) ∧
    ((1 ≤ k ∧ k ≤ 10) →
      (searchOp corpus embedFn q k).outcome =
        Except.ok (search corpus (embedFn q) k.toNat) ∧
      (searchOp corpus embedFn q k).modelCalls = 1) ∧
    ((topN ≤ 0 ∨ 10 < topN) →
      (matchOp corpus embedFn job topN).outcome =
        Except.error "invalid top_n".data ∧
      (matchOp corpus embedFn job topN).modelCalls = 0) := by
  refine ⟨?_, ?_, ?_⟩
  · intro h
    have hcond : (decide (k < kMin) || decide (kMax < k)) = true := by
      simp only [Bool.or_eq_true, decide_eq_true_eq, kMin, kMax]
      omega
    unfold searchOp
    rw [if_pos hcond]
    exact ⟨rfl, rfl⟩
  · intro h
    have hcond : (decide (k < kMin) || decide (kMax < k)) = false := by
      simp only [Bool.or_eq_false_iff, decide_eq_false_iff_not, kMin, kMax]
      omega
    unfold searchOp
    rw [if_neg (by rw [hcond]; exact Bool.false_ne_true)]
    exact ⟨rfl, rfl⟩
  · intro h
    have hcond : (decide (topN < kMin) || decide (kMax < topN)) = true := by
      simp only [Bool.or_eq_true, decide_eq_true_eq, kMin, kMax]
      omega
    unfold matchOp
    rw [if_pos hcond]
    exact ⟨rfl, rfl⟩

/-- Witness for C5: `k = 0` is rejected before any model work. -/
theorem validateK_spec_witness :
    (searchOp [] (fun _ => []) "q".data 0).outcome =
        Except.error "invalid k".data ∧
      (searchOp [] (fun _ => []) "q".data 0).modelCalls = 0 :=
  (validateK_spec [] (fun _ => []) "q".data ⟨1, [], [], []⟩ 0 1).1
    (Or.inl (by decide))

/-! ## Content-addressed embedding and idempotent upsert (§4.3)

Modelled from the spec: the Embedding Generator (backend, not under `src/`)
is keyed by a hash of (normalized text, model version); identical keys
short-circuit to a previously computed vector, and re-upserting the same id
creates no duplicate index entry. -/

/-- Content-address key of an embedding. -/
structure EmbedKey where
  text : List Char
  version : Nat
deriving DecidableEq

/-- The embedding cache, keyed by content address. -/
structure EmbedCache where
  entries : List (EmbedKey × List Int)
deriving DecidableEq

def cacheLookup (c : EmbedCache) (key : EmbedKey) : Option (List Int) :=
  (c.entries.find? (fun e => decide (e.1 = key))).map (fun e => e.2)

/-- Result of an embedding request: the vector, the updated cache, and
whether the model was invoked. -/
structure EmbedOut where
  vec : List Int
  cache : EmbedCache
  modelCalled : Bool
deriving DecidableEq

/-- Embed with the content-addressed cache: a hit short-circuits, a miss
invokes the model once and stores the vector. -/
def embedCached (model : EmbedKey → List Int) (c : EmbedCache)
    (key : EmbedKey) : EmbedOut :=
  match cacheLookup c key with
  | some v => ⟨v, c, false⟩
  | none => ⟨model key, ⟨(key, model key) :: c.entries⟩, true⟩

/-- The vector index as id-keyed entries. -/
structure VIndex where
  entries : List (Nat × List Int)
deriving DecidableEq

/-- Replace the entry for `i` in place. -/
def upsertEntry (i : Nat) (v : List Int) (e : Nat × List Int) :
    Nat × List Int :=
  if e.1 = i then (i, v) else e

/-- `upsert(id, vector)` of §4.4: replace the existing entry for the id, or
prepend a new entry. -/
def indexUpsert (ix : VIndex) (i : Nat) (v : List Int) : VIndex :=
  if ix.entries.any (fun e => decide (e.1 = i)) then
    ⟨ix.entries.map (upsertEntry i v)⟩
  else ⟨(i, v) :: ix.entries⟩

theorem upsertEntry_idem (i : Nat) (v : List Int) (e : Nat × List Int) :
    upsertEntry i v (upsertEntry i v e) = upsertEntry i v e := by
  unfold upsertEntry
  by_cases h : e.1 = i
  · rw [if_pos h]
    simp
  · rw [if_neg h, if_neg h]

theorem lookup_after_miss (model : EmbedKey → List Int) (c : EmbedCache)
    (key : EmbedKey) :
    cacheLookup ⟨(key, model key) :: c.entries⟩ key = some (model key) := by
  unfold cacheLookup
  rw [List.find?_cons_of_pos _ (by simp)]
  rfl

theorem embedCached_hit (model : EmbedKey → List Int) (c : EmbedCache)
    (key : EmbedKey) (v : List Int) (h : cacheLookup c key = some v) :
    embedCached model c key = ⟨v, c, false⟩ := by
  unfold embedCached
  rw [h]

/-- After any embedding call, the cache resolves the key to the returned
vector. -/
theorem embedCached_lookup (model : EmbedKey → List Int) (c : EmbedCache)
    (key : EmbedKey) :
    cacheLookup (embedCached model c key).cache key =
      some (embedCached model c key).vec := by
  cases hl : cacheLookup c key with
  | some w =>
      rw [embedCached_hit model c key w hl]
      exact hl
  | none =>
      have hmiss : embedCached model c key =
          ⟨model key, ⟨(key, model key) :: c.entries⟩, true⟩ := by
        unfold embedCached
        rw [hl]
      rw [hmiss]
      exact lookup_after_miss model c key

/-- C6: embedding the same key twice yields the identical vector, leaves the
cache unchanged on the second call and performs no second model invocation;
and upserting the same (id, vector) twice equals upserting it once — no
duplicate index entry is created. -/
theorem embed_deterministic (model : EmbedKey → List Int) (c : EmbedCache)
    (key : EmbedKey) (ix : VIndex) (i : Nat) (v : List Int) :
    (embedCached model (embedCached model c key).cache key).vec =
        (embedCached model c key).vec ∧
    (embedCached model (embedCached model c key).cache key).cache =
        (embedCached model c key).cache ∧
    (embedCached model (embedCached model c key).cache key).modelCalled =
        false ∧
    indexUpsert (indexUpsert ix i v) i v = indexUpsert ix i v := by
  have hfix := embedCached_hit model (embedCached model c key).cache key
    (embedCached model c key).vec (embedCached_lookup model c key)
  refine ⟨?_, ?_, ?_, ?_⟩
  · rw [hfix]
  · rw [hfix]
  · rw [hfix]
  · unfold indexUpsert
    by_cases hany : (ix.entries.any (fun e => decide (e.1 = i))) = true
    · rw [if_pos hany]
      have hany2 : ((ix.entries.map (upsertEntry i v)).any
          (fun e => decide (e.1 = i))) = true := by
        rw [List.any_eq_true] at hany ⊢
        obtain ⟨e, he, hpe⟩ := hany
        refine ⟨upsertEntry i v e, List.mem_map_of_mem _ he, ?_⟩
        simp only [decide_eq_true_eq] at hpe
        simp [upsertEntry, hpe]
      rw [if_pos hany2, List.map_map]
      congr 1
      exact List.map_congr_left (fun e _ => upsertEntry_idem i v e)
    · rw [if_neg hany]
      have hany2 : (((i, v) :: ix.entries).any
          (fun e => decide (e.1 = i))) = true := by
        simp
      rw [if_pos hany2]
      congr 1
      simp only [List.map_cons]
      have h1 : upsertEntry i v (i, v) = (i, v) := by simp [upsertEntry]
      rw [h1]
      congr 1
      refine List.map_congr_left ?_ |>.trans (List.map_id _)
      intro e he
      have : ¬(decide (e.1 = i) = true) := by
        intro hc
        exact hany (List.any_eq_true.mpr ⟨e, he, hc⟩)
      simp only [decide_eq_true_eq] at this
      simp [upsertEntry, this]

/-! ## Archive extraction (§4.1, §7)

Modelled from the spec: the Document Extractor (backend, not under `src/`)
recurses into container entries; a corrupted entry yields an
`ExtractionFailed` outcome carrying its identity without aborting siblings,
while exceeding the container-wide decompressed-size or nesting-depth bound
fails the whole container. -/

/-- An upload entry: a leaf file (with declared decompressed size and a
well-formedness flag) or a nested archive. -/
inductive Entry where
  | file (id : Nat) (size : Nat) (wellFormed : Bool) (text : List Char)
  | archive (id : Nat) (entries : List Entry)

mutual
def entrySize : Entry → Nat
  | .file _ s _ _ => s
  | .archive _ es => entriesSize es
def entriesSize : List Entry → Nat
  | [] => 0
  | e :: es => entrySize e + entriesSize es
end

mutual
def entryDepth : Entry → Nat
  | .file _ _ _ _ => 0
  | .archive _ es => entriesDepth es + 1
def entriesDepth : List Entry → Nat
  | [] => 0
  | e :: es => max (entryDepth e) (entriesDepth es)
end

/-- Per-entry extraction outcome. -/
inductive ExtractOutcome where
  | ok (id : Nat) (text : List Char)
  | extractionFailed (id : Nat)
deriving DecidableEq

mutual
def extractOne : Entry → List ExtractOutcome
  | .file i _ wf text =>
      if wf then [ExtractOutcome.ok i text]
      else [ExtractOutcome.extractionFailed i]
  | .archive _ es => extractAll es
def extractAll : List Entry → List ExtractOutcome
  | [] => []
  | e :: es => extractOne e ++ extractAll es
end

/-- Container-wide failure causes. -/
inductive ContainerError where
  | sizeExceeded
  | depthExceeded
deriving DecidableEq

/-- `extract(bytes, contentType)` on a container: enforce the container-wide
decompressed-size and nesting-depth bounds, then extract every entry,
recording per-entry failures. -/
def extract (maxSize maxDepth : Nat) (e : Entry) :
    Except ContainerError (List ExtractOutcome) :=
  if maxSize < entrySize e then Except.error ContainerError.sizeExceeded
  else if maxDepth < entryDepth e then
    Except.error ContainerError.depthExceeded
  else Except.ok (extractOne e)

theorem extractAll_append (a b : List Entry) :
    extractAll (a ++ b) = extractAll a ++ extractAll b := by
  induction a with
  | nil => simp [extractAll]
  | cons e es ih => simp [extractAll, ih]

/-- C8: a corrupted entry in a container contributes exactly its
`ExtractionFailed` outcome with its identity, with every sibling entry
extracted exactly as it would be on its own; exceeding the container-wide
size or depth bound instead fails the whole container. -/
theorem extract_spec (maxSize maxDepth : Nat) (aid i sz : Nat)
    (txt : List Char) (es₁ es₂ : List Entry) :
    extractAll (es₁ ++ Entry.file i sz false txt :: es₂) =
        extractAll es₁ ++
          ExtractOutcome.extractionFailed i :: extractAll es₂ ∧
    (maxSize <
        entrySize (Entry.archive aid (es₁ ++ Entry.file i sz false txt :: es₂)) →
      extract maxSize maxDepth
          (Entry.archive aid (es₁ ++ Entry.file i sz false txt :: es₂)) =
        Except.error ContainerError.sizeExceeded) ∧
    (entrySize (Entry.archive aid (es₁ ++ Entry.file i sz false txt :: es₂)) ≤
        maxSize →
      entryDepth (Entry.archive aid (es₁ ++ Entry.file i sz false txt :: es₂)) ≤
        maxDepth →
      extract maxSize maxDepth
          (Entry.archive aid (es₁ ++ Entry.file i sz false txt :: es₂)) =
        Except.ok (extractAll es₁ ++
          ExtractOutcome.extractionFailed i :: extractAll es₂)) := by
  have hmain : extractAll (es₁ ++ Entry.file i sz false txt :: es₂) =
      extractAll es₁ ++
        ExtractOutcome.extractionFailed i :: extractAll es₂ := by
    rw [extractAll_append]
    simp [extractAll, extractOne]
  refine ⟨hmain, ?_, ?_⟩
  · intro hsz
    unfold extract
    rw [if_pos hsz]
  · intro hsz hdep
    unfold extract
    rw [if_neg (by omega), if_neg (by omega)]
    rw [show extractOne (Entry.archive aid
        (es₁ ++ Entry.file i sz false txt :: es₂)) =
      extractAll (es₁ ++ Entry.file i sz false txt :: es₂) from rfl, hmain]

/-- Witness for C8: a concrete in-bounds container with one corrupt entry
extracts the siblings and reports the corrupt identity. -/
theorem extract_spec_witness :
    extract 100 3 (Entry.archive 9
        [Entry.file 1 5 true "alpha".data, Entry.file 2 5 false "junk".data,
          Entry.file 3 5 true "beta".data]) =
      Except.ok [ExtractOutcome.ok 1 "alpha".data,
        ExtractOutcome.extractionFailed 2, ExtractOutcome.ok 3 "beta".data] :=
  (extract_spec 100 3 9 2 5 "junk".data [Entry.file 1 5 true "alpha".data]
    [Entry.file 3 5 true "beta".data]).2.2 (by decide) (by decide)

/-! ## Frontend search handler (`Search.handleSearch`) -/

/-- JavaScript `String.prototype.trim`: strip leading and trailing
whitespace. -/
def jsTrim (s : List Char) : List Char :=
  ((s.dropWhile isWsChar).reverse.dropWhile isWsChar).reverse

/-- The request body the Search page posts to the `/ask` endpoint. -/
structure AskRequest where
  query : List Char
  k : Nat
deriving DecidableEq

/-- The Search page's `handleSearch`: `if (!query.trim()) return` — a query
whose trimmed form is empty sends no request; otherwise the body carries the
trimmed query and `k`. -/
def handleSearch (query : List Char) (k : Nat) : Option AskRequest :=
  if (jsTrim query).isEmpty then none
  else some ⟨jsTrim query, k⟩

/-- C9: `handleSearch` issues no request exactly when the trimmed query is
empty, and any issued request carries the trimmed query text (not the raw
input) together with `k`. -/
theorem handleSearch_spec (query : List Char) (k : Nat) :
    (jsTrim query = [] → handleSearch query k = none) ∧
    (jsTrim query ≠ [] →
      handleSearch query k = some ⟨jsTrim query, k⟩) := by
  constructor
  · intro h
    unfold handleSearch
    rw [if_pos (by rw [h]; rfl)]
  · intro h
    unfold handleSearch
    rw [if_neg (by simpa [List.isEmpty_iff] using h)]

/-- Witness for C9: a whitespace-only query sends nothing; a padded query is
sent trimmed. -/
theorem handleSearch_spec_witness :
    handleSearch "   ".data 3 = none ∧
      handleSearch " hi ".data 3 = some ⟨"hi".data, 3⟩ := by
  constructor
  · exact (handleSearch_spec "   ".data 3).1 (by decide)
  · rw [(handleSearch_spec " hi ".data 3).2 (by decide)]
    decide

/-! ## Frontend auth store (`useAuthStore`) and router (`App`) -/

/-- The persisted auth state of `useAuthStore`. -/
structure AuthState where
  user : Option Nat
  token : Option (List Char)
  isAuthenticated : Bool
deriving DecidableEq

/-- The initial store state: no user, no token, unauthenticated. -/
def initialAuth : AuthState := ⟨none, none, false⟩

/-- The store's actions. -/
inductive AuthOp where
  | login (user : Nat) (token : List Char)
  | logout
  | updateUser (user : Nat)
deriving DecidableEq

/-- `login` sets user, token and the flag in one update; `logout` resets all
three; `updateUser` changes only the user. -/
def applyOp (s : AuthState) : AuthOp → AuthState
  | .login u t => ⟨some u, some t, true⟩
  | .logout => ⟨none, none, false⟩
  | .updateUser u => ⟨some u, s.token, s.isAuthenticated⟩

/-- Run a trace of store actions from the initial state. -/
def runOps (ops : List AuthOp) : AuthState :=
  ops.foldl applyOp initialAuth

/-- A login appears in the trace with no logout after it. -/
def LoginActive (ops : List AuthOp) : Prop :=
  ∃ pre u t post, ops = pre ++ AuthOp.login u t :: post ∧
    ∀ x ∈ post, x ≠ AuthOp.logout

/-- The pages the router can render. -/
inductive Page where
  | loginPage
  | upload
  | searchPage
  | jobs
deriving DecidableEq

/-- One routing step: render a page or redirect. -/
inductive RouteResult where
  | page (p : Page)
  | redirect (dest : List Char)
deriving DecidableEq

/-- The `App` component's routes: authenticated routes with `/` redirecting
to `/upload`; otherwise `/` renders Login and every other path redirects to
`/`. -/
def routeOnce (auth : Bool) (path : List Char) : Option RouteResult :=
  if auth then
    if path = "/".data then some (RouteResult.redirect "/upload".data)
    else if path = "/upload".data then some (RouteResult.page Page.upload)
    else if path = "/search".data then some (RouteResult.page Page.searchPage)
    else if path = "/jobs".data then some (RouteResult.page Page.jobs)
    else none
  else
    if path = "/".data then some (RouteResult.page Page.loginPage)
    else some (RouteResult.redirect "/".data)

/-- Render a path, following at most one redirect (the router's `Navigate`
with `replace`). -/
def render (auth : Bool) (path : List Char) : Option Page :=
  match routeOnce auth path with
  | some (RouteResult.page p) => some p
  | some (RouteResult.redirect p₂) =>
      match routeOnce auth p₂ with
      | some (RouteResult.page p) => some p
      | _ => none
  | none => none

theorem concat_inj {α : Type} {a b : List α} {x y : α}
    (h : a ++ [x] = b ++ [y]) : a = b ∧ x = y := by
  obtain ⟨h1, h2⟩ := List.append_inj' h rfl
  refine ⟨h1, ?_⟩
  injection h2

theorem loginActive_concat_login (xs : List AuthOp) (u : Nat)
    (t : List Char) : LoginActive (xs ++ [AuthOp.login u t]) :=
  ⟨xs, u, t, [], rfl, by simp⟩

theorem not_loginActive_concat_logout (xs : List AuthOp) :
    ¬ LoginActive (xs ++ [AuthOp.logout]) := by
  rintro ⟨pre, u, t, post, heq, hpost⟩
  rcases List.eq_nil_or_concat post with hp | ⟨post₀, y, hp⟩
  · subst hp
    obtain ⟨-, h2⟩ := concat_inj heq
    exact AuthOp.noConfusion h2
  · rw [List.concat_eq_append] at hp
    subst hp
    have heq2 : xs ++ [AuthOp.logout] =
        (pre ++ AuthOp.login u t :: post₀) ++ [y] := by
      rw [heq]
      simp
    obtain ⟨-, h2⟩ := concat_inj heq2
    exact hpost AuthOp.logout
      (List.mem_append_right _ (by rw [← h2]; simp)) rfl

theorem loginActive_concat_updateUser (xs : List AuthOp) (u : Nat) :
    LoginActive (xs ++ [AuthOp.updateUser u]) ↔ LoginActive xs := by
  constructor
  · rintro ⟨pre, u₀, t₀, post, heq, hpost⟩
    rcases List.eq_nil_or_concat post with hp | ⟨post₀, y, hp⟩
    · subst hp
      obtain ⟨-, h2⟩ := concat_inj heq
      exact AuthOp.noConfusion h2
    · rw [List.concat_eq_append] at hp
      subst hp
      have heq2 : xs ++ [AuthOp.updateUser u] =
          (pre ++ AuthOp.login u₀ t₀ :: post₀) ++ [y] := by
        rw [heq]
        simp
      obtain ⟨h1, -⟩ := concat_inj heq2
      exact ⟨pre, u₀, t₀, post₀, h1, fun x hx =>
        hpost x (List.mem_append_left _ hx)⟩
  · rintro ⟨pre, u₀, t₀, post, heq, hpost⟩
    refine ⟨pre, u₀, t₀, post ++ [AuthOp.updateUser u], ?_, ?_⟩
    · rw [heq]
      simp
    · intro x hx
      rcases List.mem_append.mp hx with h | h
      · exact hpost x h
      · rw [List.mem_singleton.mp h]
        exact AuthOp.noConfusion

theorem isAuthenticated_iff_loginActive (ops : List AuthOp) :
    (runOps ops).isAuthenticated = true ↔ LoginActive ops := by
  induction ops using List.reverseRecOn with
  | nil =>
      constructor
      · intro h
        exact absurd h (by decide)
      · rintro ⟨pre, u, t, post, heq, -⟩
        exact absurd heq.symm (by simp)
  | append_singleton xs x ih =>
      rw [runOps, List.foldl_append]
      cases x with
      | login u t =>
          constructor
          · intro _
            exact loginActive_concat_login xs u t
          · intro _
            rfl
      | logout =>
          constructor
          · intro h
            exact absurd h (by simp [applyOp])
          · intro h
            exact absurd h (not_loginActive_concat_logout xs)
      | updateUser u =>
          rw [show (List.foldl applyOp initialAuth xs) = runOps xs from rfl]
          rw [show (List.foldl applyOp (runOps xs)
              [AuthOp.updateUser u]).isAuthenticated
            = (runOps xs).isAuthenticated from rfl]
          rw [loginActive_concat_updateUser xs u]
          exact ih

/-- C10: the store satisfies `isAuthenticated = true` exactly when a login
occurred with no logout since; `logout` atomically resets user, token and
the flag; and with `isAuthenticated = false` every path renders the Login
page (any non-root path redirects to `/`). -/
theorem authStore_spec (ops : List AuthOp) (path : List Char) :
    ((runOps ops).isAuthenticated = true ↔ LoginActive ops) ∧
    runOps (ops ++ [AuthOp.logout]) = ⟨none, none, false⟩ ∧
    render false path = some Page.loginPage := by
  refine ⟨isAuthenticated_iff_loginActive ops, ?_, ?_⟩
  · rw [runOps, List.foldl_append]
    rfl
  · by_cases hp : path = "/".data
    · simp [render, routeOnce, hp]
    · simp [render, routeOnce, hp]

/-- Witness for C10: a login with a later user update leaves the session
authenticated; a trailing logout resets the store; the root path renders
Login when unauthenticated. -/
theorem authStore_spec_witness :
    (runOps [AuthOp.login 7 "tok".data,
        AuthOp.updateUser 8]).isAuthenticated = true ∧
    runOps [AuthOp.login 7 "tok".data, AuthOp.logout] =
        AuthState.mk none none false ∧
    render false "/profile".data = some Page.loginPage := by
  refine ⟨?_, ?_, ?_⟩
  · exact (authStore_spec [AuthOp.login 7 "tok".data, AuthOp.updateUser 8]
      "/".data).1.mpr ⟨[], 7, "tok".data, [AuthOp.updateUser 8], rfl,
        by decide⟩
  · exact (authStore_spec [AuthOp.login 7 "tok".data] "/".data).2.1
  · exact (authStore_spec [] "/profile".data).2.2
